import Mathlib

/-!
Verification of the VRP genetic-algorithm solver core (vrp_mvp).

Shallow embedding of `models.py`, `geo.py`, `ga_solver.py` and the vehicle
lookup of `solver.py`.  Python floats are modelled as rationals; the
haversine great-circle metric (a pure function of coordinates whose exact
values never matter to the properties below) is passed as an explicit
`dist` parameter; Python dicts keyed by depot index become positional
lists, dicts keyed by node id become association lists with dict update
semantics; the mutable OSRM segment cache becomes explicit state passing
with a stream of external-call outcomes.
-/

namespace VRP

/-- A coordinate as a (lat, lon) pair of rationals. -/
abbrev Coord : Type := ℚ × ℚ

/-- `models.Depot`: id, coordinates, and per-shift demand table. -/
structure Depot where
  id : String
  lat : ℚ
  lon : ℚ
  demand_by_shift : List (String × ℕ)
deriving DecidableEq, Inhabited

/-- `d.demand_by_shift.get(sid, 0)`. -/
def Depot.demand (d : Depot) (sid : String) : ℕ :=
  (d.demand_by_shift.lookup sid).getD 0

/-- `models.Factory`. -/
structure Factory where
  id : String
  lat : ℚ
  lon : ℚ
deriving DecidableEq, Inhabited

/-- `models.Shift`. -/
structure Shift where
  id : String
  start_time : String
  max_ride_minutes : ℕ
deriving DecidableEq, Inhabited

/-- `models.OwnedVehicleType`. -/
structure OwnedVehicleType where
  type_id : String
  capacity : ℕ
  cost_per_km : ℚ
  count : ℕ
deriving DecidableEq, Inhabited

/-- `models.RentedVehicleType`. -/
structure RentedVehicleType where
  type_id : String
  capacity : ℕ
  cost_per_km : ℚ
  fixed_rental_cost : ℚ
deriving DecidableEq, Inhabited

/-- `models.Fleet`. -/
structure Fleet where
  owned : List OwnedVehicleType
  rented : List RentedVehicleType
deriving DecidableEq, Inhabited

/-- `models.Instance` (the distance/time tables are only used by the
baseline solver, which is outside the GA core). -/
structure Instance where
  depots : List Depot
  factory : Factory
  shifts : List Shift
  vehicles : Fleet
deriving DecidableEq, Inhabited

/-- `models.RouteLeg`. -/
structure RouteLeg where
  from_node : String
  to_node : String
  distance_km : ℚ
  time_min : ℚ
  path_coords : List Coord
deriving DecidableEq, Inhabited

/-- `models.Route`. -/
structure Route where
  shift_id : String
  vehicle_type_id : String
  owned : Bool
  seats : ℕ
  passengers : ℕ
  depot_ids : List String
  pickups : List (String × ℕ)
  legs : List RouteLeg
  arrival_time : String
  cost : ℚ
deriving DecidableEq, Inhabited

/-- One entry of a report's `depot_visits` list (a bare dict in Python). -/
structure DepotVisit where
  depot_id : String
  passengers : ℕ
  time_min : ℚ
  cost : ℚ
deriving DecidableEq, Inhabited

/-- `models.RouteReport`. -/
structure RouteReport where
  vehicle_id : String
  vehicle_type : String
  shift_id : String
  passengers_carried : ℕ
  empty_seats : ℤ
  total_trip_time_min : ℚ
  total_trip_cost : ℚ
  depot_visits : List DepotVisit
  violations : List String
deriving DecidableEq, Inhabited

/-- `models.Solution`.  `depot_leftovers` is a dict keyed by depot id,
modelled as an association list in insertion order. -/
structure Solution where
  routes : List Route
  total_cost : ℚ
  reports : List RouteReport
  depot_leftovers : List (String × ℤ)
  violations : List String
deriving DecidableEq, Inhabited

/-- `ga_solver.Chromosome`: a list of (depot_index, passengers) pairs. -/
structure Chromosome where
  assignments : List (ℕ × ℕ)
deriving DecidableEq, Inhabited

/-- `geo.travel_time_min` at the default average speed of 30 km/h (the GA
solver always calls it with the default; the positive-speed guard of the
source can never fire there). -/
def travel_time_min (distance_km : ℚ) : ℚ :=
  distance_km / 30 * 60

/-- One concrete vehicle of the per-run expansion built at
`_evaluate_chromosome` lines 42-49: (type_id, capacity, cost_per_km, owned). -/
structure VehicleInst where
  type_id : String
  capacity : ℕ
  cost_per_km : ℚ
  owned : Bool
deriving DecidableEq, Inhabited

/-- The owned half of the vehicle list: owned types sorted ascending by
capacity (Python `sorted` is stable, as is insertion sort), each repeated
`count` times. -/
def owned_vehicle_list (f : Fleet) : List VehicleInst :=
  (List.insertionSort (fun a b => a.capacity ≤ b.capacity) f.owned).flatMap
    (fun o => List.replicate o.count ⟨o.type_id, o.capacity, o.cost_per_km, true⟩)

/-- The rented half of the vehicle list: rented types sorted ascending by
capacity, one vehicle each. -/
def rented_vehicle_list (f : Fleet) : List VehicleInst :=
  (List.insertionSort (fun a b => a.capacity ≤ b.capacity) f.rented).map
    (fun r => ⟨r.type_id, r.capacity, r.cost_per_km, false⟩)

/-- The concrete vehicle list of `_evaluate_chromosome` lines 42-49:
owned expansion first, then rented. -/
def vehicle_list (f : Fleet) : List VehicleInst :=
  owned_vehicle_list f ++ rented_vehicle_list f

/-- `any(v > 0 for v in remaining.values())`. -/
def any_demand_left (remaining : List ℕ) : Bool :=
  remaining.any (fun v => decide (0 < v))

/-- Python `max(iterable, key=...)` keeps the first element attaining the
maximum (it replaces the running best only on a strictly greater key). -/
def fold_max_remaining (remaining : List ℕ) (c : ℕ) (cs : List ℕ) : ℕ :=
  cs.foldl (fun b i => if remaining.getD b 0 < remaining.getD i 0 then i else b) c

/-- Start-depot choice of line 84: first index of maximal positive
remaining demand, `none` when no demand remains (Python `default=None`). -/
def argmax_remaining (remaining : List ℕ) : Option ℕ :=
  match (List.range remaining.length).filter (fun i => decide (0 < remaining.getD i 0)) with
  | [] => none
  | c :: cs => some (fold_max_remaining remaining c cs)

/-- Coordinates of depot `j` of the instance. -/
def depot_coord (depots : List Depot) (j : ℕ) : Coord :=
  ((depots.getD j default).lat, (depots.getD j default).lon)

/-- Python `min(c :: cs, key=f)`: first element of minimal key (replaces
the running best only on a strictly smaller key). -/
def fold_min_by (f : ℕ → ℚ) (c : ℕ) (cs : List ℕ) : ℕ :=
  cs.foldl (fun b j => if f j < f b then j else b) c

/-- The body of the while loop of `_evaluate_chromosome` lines 89-108,
with an explicit iteration bound: every iteration takes at least one
passenger, so `capacity_left` bounds the number of iterations and serves
as structural fuel (the fuel never runs out, see `pickup_loop_eq`).
Returns (pickups, ordered depot indices, final remaining demand).  The
source's `if take <= 0: break` is unreachable (both `min` arguments are
positive at that point) and is therefore not reproduced. -/
def pickup_go (dist : Coord → Coord → ℚ) (depots : List Depot) :
    ℕ → ℕ → ℕ → List ℕ → List ℕ → List (String × ℕ) × List ℕ × List ℕ
  | _, 0, _, remaining, _ => ([], [], remaining)
  | 0, _ + 1, _, remaining, _ => ([], [], remaining)
  | fuel + 1, cap_pred + 1, current, remaining, used =>
    let capacity_left := cap_pred + 1
    if remaining.getD current 0 = 0 ∨ current ∈ used then ([], [], remaining)
    else
      let take := min (remaining.getD current 0) capacity_left
      let pick : String × ℕ := ((depots.getD current default).id, take)
      let remaining2 := remaining.set current (remaining.getD current 0 - take)
      let used2 := current :: used
      let cap2 := capacity_left - take
      if cap2 = 0 then ([pick], [current], remaining2)
      else
        let candidates := (List.range remaining2.length).filter
          (fun j => decide (0 < remaining2.getD j 0 ∧ j ∉ used2))
        if candidates = [] then ([pick], [current], remaining2)
        else
          let next := fold_min_by
            (fun j => dist (depot_coord depots current) (depot_coord depots j))
            (candidates.headD 0) candidates.tail
          let rest := pickup_go dist depots fuel cap2 next remaining2 used2
          (pick :: rest.1, current :: rest.2.1, rest.2.2)

/-- The while loop of `_evaluate_chromosome` lines 89-108: one vehicle's
pickup sequence starting at depot `current` with `capacity_left` seats. -/
def pickup_loop (dist : Coord → Coord → ℚ) (depots : List Depot)
    (capacity_left : ℕ) (current : ℕ) (remaining : List ℕ) (used : List ℕ) :
    List (String × ℕ) × List ℕ × List ℕ :=
  pickup_go dist depots capacity_left capacity_left current remaining used

/-- Lines 113-147: legs (geometric fallback branch, `use_osrm=False`),
route record and cost for one vehicle given its pickups. -/
def make_route (dist : Coord → Coord → ℚ) (inst : Instance) (shift : Shift)
    (v : VehicleInst) (pickups : List (String × ℕ)) (ordered : List ℕ) : Route :=
  let waypoints : List Coord :=
    ordered.map (fun i => depot_coord inst.depots i) ++ [(inst.factory.lat, inst.factory.lon)]
  let node_seq : List String :=
    ordered.map (fun i => (inst.depots.getD i default).id) ++ [inst.factory.id]
  let legs := ((waypoints.zip waypoints.tail).zip (node_seq.zip node_seq.tail)).map
    (fun p => RouteLeg.mk p.2.1 p.2.2 (dist p.1.1 p.1.2)
      (travel_time_min (dist p.1.1 p.1.2)) [p.1.1, p.1.2])
  let total_dist := (legs.map RouteLeg.distance_km).sum
  { shift_id := shift.id
    vehicle_type_id := v.type_id
    owned := v.owned
    seats := v.capacity
    passengers := (pickups.map Prod.snd).sum
    depot_ids := ordered.map (fun i => (inst.depots.getD i default).id)
    pickups := pickups
    legs := legs
    arrival_time := shift.start_time
    cost := total_dist * v.cost_per_km }

/-- The vehicle loop of `_evaluate_chromosome` lines 74-149: build one
route per vehicle in order, threading remaining demand; a vehicle with no
pickups is skipped, and the loop breaks once no demand is left.  Returns
(routes, summed route cost, final remaining demand). -/
def build_routes (dist : Coord → Coord → ℚ) (inst : Instance) (shift : Shift) :
    List VehicleInst → List ℕ → List Route × ℚ × List ℕ
  | [], remaining => ([], 0, remaining)
  | v :: vs, remaining =>
    if any_demand_left remaining = false then ([], 0, remaining)
    else
      match argmax_remaining remaining with
      | none => ([], 0, remaining)
      | some start =>
        let res := pickup_loop dist inst.depots v.capacity start remaining []
        if res.1 = [] then build_routes dist inst shift vs res.2.2
        else
          let route := make_route dist inst shift v res.1 res.2.1
          let rest := build_routes dist inst shift vs res.2.2
          (route :: rest.1, route.cost + rest.2.1, rest.2.2)

/-- `_evaluate_chromosome` with `use_osrm=False`.  The `ch` parameter is
never read, exactly as in the source, where the chromosome does not
influence construction. -/
def evaluate_chromosome (dist : Coord → Coord → ℚ) (ch : Chromosome)
    (inst : Instance) : Solution × ℚ :=
  let shift := inst.shifts.headI
  let remaining0 := inst.depots.map (fun d => d.demand shift.id)
  let res := build_routes dist inst shift (vehicle_list inst.vehicles) remaining0
  let total_demand := (inst.depots.map (fun d => d.demand shift.id)).sum
  let served := (res.1.map Route.passengers).sum
  let total_cost :=
    if served < total_demand then res.2.1 + ((total_demand - served : ℕ) : ℚ) * 1000
    else res.2.1
  ({ routes := res.1, total_cost := total_cost, reports := [],
     depot_leftovers := [], violations := [] }, total_cost)

/-- Dict read with default 0: `m.get(k, 0)` on an association list. -/
def lookupZ (m : List (String × ℤ)) (k : String) : ℤ :=
  (m.lookup k).getD 0

/-- Dict assignment `m[k] = v`: replace in place when the key exists,
append otherwise (Python dicts preserve insertion order). -/
def setZ (m : List (String × ℤ)) (k : String) (v : ℤ) : List (String × ℤ) :=
  if (m.lookup k).isSome then m.map (fun p => if p.1 = k then (k, v) else p)
  else m ++ [(k, v)]

/-- `_generate_reports` lines 170-172: initialize depot leftovers to the
raw demand of every depot (a later duplicate id would overwrite an
earlier one, as in a Python dict). -/
def init_leftovers (inst : Instance) (shift : Shift) : List (String × ℤ) :=
  inst.depots.foldl (fun m d => setZ m d.id (d.demand shift.id : ℤ)) []

/-- Lines 192-194: one pickup's leftover update,
`leftovers[id] = max(0, leftovers.get(id, 0) - taken)`. -/
def apply_pickup (m : List (String × ℤ)) (p : String × ℕ) : List (String × ℤ) :=
  setZ m p.1 (max 0 (lookupZ m p.1 - (p.2 : ℤ)))

/-- Leftover updates of one route, in pickup order. -/
def route_leftovers (m : List (String × ℤ)) (r : Route) : List (String × ℤ) :=
  r.pickups.foldl apply_pickup m

/-- The leftover accounting of `_generate_reports`: raw demand minus the
served pickups of every route, clamped at zero step by step. -/
def solution_leftovers (inst : Instance) (shift : Shift) (routes : List Route) :
    List (String × ℤ) :=
  routes.foldl route_leftovers (init_leftovers inst shift)

/-- Lines 197-206: per-depot visit breakdown of one route
(`legs[min(i, len(legs) - 1)]`; the cost factor is 50 in both branches of
the source's conditional). -/
def depot_visits_detail (r : Route) : List DepotVisit :=
  (List.range r.pickups.length).map (fun i =>
    let p := r.pickups.getD i default
    let leg := r.legs.getD (min i (r.legs.length - 1)) default
    { depot_id := p.1
      passengers := p.2
      time_min := leg.time_min
      cost := leg.distance_km * (if r.owned then 50 else 50) })

/-- Lines 177-226: the per-route report (vehicle ids are positional). -/
def route_report (inst : Instance) (idx : ℕ) (r : Route) : RouteReport :=
  let total_time := (r.legs.map RouteLeg.time_min).sum
  let empty_seats : ℤ := (r.seats : ℤ) - (r.passengers : ℤ)
  { vehicle_id := "V" ++ toString (idx + 1)
    vehicle_type := r.vehicle_type_id
    shift_id := r.shift_id
    passengers_carried := r.passengers
    empty_seats := empty_seats
    total_trip_time_min := total_time
    total_trip_cost := r.cost
    depot_visits := depot_visits_detail r
    violations :=
      (if empty_seats < 0 then ["over_capacity"] else []) ++
      (if (inst.shifts.headI.max_ride_minutes : ℚ) < total_time
       then ["exceeds_ride_time"] else []) }

/-- Lines 181-183: global violation emitted when a route revisits a depot
(`len(depot_ids) != len(set(depot_ids))`). -/
def dup_violation (idx : ℕ) (r : Route) : List String :=
  if r.depot_ids.length ≠ r.depot_ids.dedup.length then
    ["Vehicle V" ++ toString (idx + 1) ++ " visits same depot multiple times: "
      ++ toString r.depot_ids]
  else []

/-- Lines 229-231: a violation for every depot with positive leftover, in
dict (insertion) order. -/
def leftover_violations (m : List (String × ℤ)) : List String :=
  m.flatMap (fun p =>
    if 0 < p.2 then
      ["Depot " ++ p.1 ++ " has " ++ toString p.2 ++ " unserved passengers"]
    else [])

/-- `_generate_reports`: fills `reports`, `depot_leftovers` and
`violations` of the given Solution and returns it; all other fields are
carried over unchanged (the Python mutates the same object in place). -/
def generate_reports (sol : Solution) (inst : Instance) : Solution :=
  { sol with
    reports := (List.range sol.routes.length).map
      (fun i => route_report inst i (sol.routes.getD i default))
    depot_leftovers := solution_leftovers inst inst.shifts.headI sol.routes
    violations :=
      (List.range sol.routes.length).flatMap
        (fun i => dup_violation i (sol.routes.getD i default))
      ++ leftover_violations (solution_leftovers inst inst.shifts.headI sol.routes) }

/-- `solve_ga` lines 394-396: the best-so-far update.  `none` models the
initial `best_cost = inf`; a candidate replaces the best only on a
strictly smaller cost, so the first minimum encountered is kept. -/
def update_best (best : Option (Solution × ℚ)) (x : Solution × ℚ) :
    Option (Solution × ℚ) :=
  match best with
  | none => some x
  | some b => if x.2 < b.2 then some x else some b

/-- The generation loop of `solve_ga` lines 383-396, abstracted over the
per-generation evaluated (Solution, cost) pairs: fold the best-so-far
update over every generation's scored population in order. -/
def run_generations (gens : List (List (Solution × ℚ))) : Option (Solution × ℚ) :=
  gens.foldl (fun b g => g.foldl update_best b) none

/-- `solve_ga` with `use_osrm=False`.  Since `_evaluate_chromosome` never
reads its chromosome, every chromosome of every generation evaluates to
the same (Solution, cost) pair, whatever seeding, selection, crossover
and mutation produce; so the run is `run_generations` on `generations`
copies of a population of `pop_size` identical scored pairs.  The
`assert best_sol is not None` of line 417 is the only failure path,
modelled as `Except.error`. -/
def solve_ga (dist : Coord → Coord → ℚ) (inst : Instance)
    (pop_size generations : ℕ) : Except String Solution :=
  let scored := evaluate_chromosome dist { assignments := [] } inst
  match run_generations (List.replicate generations (List.replicate pop_size scored)) with
  | none => Except.error "assertion failed: best solution is None"
  | some b => Except.ok (generate_reports b.1 inst)

/-- `solver._find_best_vehicle_for_load`: the baseline solver's vehicle
lookup, the only place in the repository that fails on an empty fleet. -/
def find_best_vehicle_for_load (f : Fleet) (load : ℕ) :
    Except String (String × Bool × ℕ × ℚ) :=
  let owned_sorted := List.insertionSort (fun a b => a.capacity ≤ b.capacity) f.owned
  let rented_sorted := List.insertionSort (fun a b => a.capacity ≤ b.capacity) f.rented
  match owned_sorted.find? (fun o => decide (load ≤ o.capacity)) with
  | some o => Except.ok (o.type_id, true, o.capacity, 0)
  | none =>
    match rented_sorted.find? (fun r => decide (load ≤ r.capacity)) with
    | some r => Except.ok (r.type_id, false, r.capacity, r.fixed_rental_cost)
    | none =>
      match rented_sorted.getLast? with
      | some r => Except.ok (r.type_id, false, r.capacity, r.fixed_rental_cost)
      | none =>
        match owned_sorted.getLast? with
        | some o => Except.ok (o.type_id, true, o.capacity, 0)
        | none => Except.error "No vehicles defined"

/-- Result of one segment lookup: (distance_km, time_min, path). -/
structure SegResult where
  dist : ℚ
  time : ℚ
  path : List Coord
deriving DecidableEq, Inhabited

/-- Cache key of `osrm_segment` line 53: both endpoints rounded to six
decimal places. -/
def round6 (x : ℚ) : ℚ :=
  (round (x * 1000000) : ℤ) / 1000000

/-- The rounded (origin, destination) cache key. -/
def seg_key (a b : Coord) : ℚ × ℚ × ℚ × ℚ :=
  (round6 a.1, round6 a.2, round6 b.1, round6 b.2)

/-- The `_osrm_cache` global plus the run's interaction with the external
service: `cache` is the memo table, `responses` the stream of outcomes of
successive external calls (`none` = the call raised, Python line 62), and
`calls` the log of keys for which an external call was made. -/
structure OsrmState where
  cache : List ((ℚ × ℚ × ℚ × ℚ) × SegResult)
  responses : List (Option SegResult)
  calls : List (ℚ × ℚ × ℚ × ℚ)
deriving DecidableEq, Inhabited

/-- `osrm_segment` lines 52-68: return the cached triple on a hit;
otherwise perform one external call, fall back to the geometric estimate
on failure, and memoize the result either way. -/
def osrm_segment (dist : Coord → Coord → ℚ) (st : OsrmState) (a b : Coord) :
    SegResult × OsrmState :=
  match st.cache.lookup (seg_key a b) with
  | some r => (r, st)
  | none =>
    let result := match st.responses.headD none with
      | some r => r
      | none => { dist := dist a b, time := travel_time_min (dist a b), path := [a, b] }
    (result,
      { cache := (seg_key a b, result) :: st.cache
        responses := st.responses.tail
        calls := st.calls ++ [seg_key a b] })

/-- A run's sequence of segment lookups, threading the cache state. -/
def run_segments (dist : Coord → Coord → ℚ) :
    List (Coord × Coord) → OsrmState → List SegResult × OsrmState
  | [], st => ([], st)
  | q :: qs, st =>
    let r := osrm_segment dist st q.1 q.2
    let rest := run_segments dist qs r.2
    (r.1 :: rest.1, rest.2)

/-- Passengers taken at depots with a given id, summed over a pickup list. -/
def picked (ps : List (String × ℕ)) (did : String) : ℕ :=
  ((ps.filter (fun p => decide (p.1 = did))).map Prod.snd).sum

/-- Passengers picked up at a given depot id, summed over all routes. -/
def picked_total (routes : List Route) (did : String) : ℕ :=
  (routes.map (fun r => picked r.pickups did)).sum

/-- A degenerate metric for concrete witnesses (the claims hold for every
metric). -/
def wit_dist : Coord → Coord → ℚ := fun _ _ => 0

/-- A concrete two-depot, one-vehicle instance for witnesses: total
demand 12 against one owned vehicle of capacity 10. -/
def wit_inst : Instance :=
  { depots := [{ id := "A", lat := 0, lon := 0, demand_by_shift := [("s", 5)] },
               { id := "B", lat := 0, lon := 0, demand_by_shift := [("s", 7)] }]
    factory := { id := "F", lat := 0, lon := 0 }
    shifts := [{ id := "s", start_time := "08:00", max_ride_minutes := 60 }]
    vehicles := { owned := [{ type_id := "van", capacity := 10, cost_per_km := 2, count := 1 }]
                  rented := [] } }

/-- An arbitrary chromosome for witnesses (evaluation ignores it). -/
def wit_ch : Chromosome := { assignments := [(0, 5), (1, 7)] }

/-- A fleet with one owned type (capacity 50) and one rented type
(capacity 5): the witness fleet for the C6 ordering counterexample. -/
def fleet_c6 : Fleet :=
  { owned := [{ type_id := "big", capacity := 50, cost_per_km := 1, count := 1 }]
    rented := [{ type_id := "small", capacity := 5, cost_per_km := 1, fixed_rental_cost := 0 }] }

/-- Two-generation fixture for the best-cost witness: generation 1 scores
cost 5, generation 2 scores cost 3. -/
def gens_w : List (List (Solution × ℚ)) := [[(default, 5)], [(default, 3)]]

/-- A one-depot instance with demand 10 and an empty fleet. -/
def inst_c7 : Instance :=
  { depots := [{ id := "A", lat := 0, lon := 0, demand_by_shift := [("s", 10)] }]
    factory := { id := "F", lat := 0, lon := 0 }
    shifts := [{ id := "s", start_time := "08:00", max_ride_minutes := 60 }]
    vehicles := { owned := [], rented := [] } }

/-- Spec-side mirror of the greedy fill loop, written from the words of
the specification (section 4.3, step 2): take
`min(remaining-at-current-depot, capacity-left)`; if that exhausts
capacity, stop; otherwise move to the nearest depot (by the straight-line
metric) among depots with positive remaining demand not yet visited by
this vehicle, and repeat; a vehicle never revisits a depot.  Structural
fuel as in `pickup_go`; to be compared with the source-side `pickup_loop`. -/
def greedy_fill_go (dist : Coord → Coord → ℚ) (depots : List Depot) :
    ℕ → ℕ → ℕ → List ℕ → List ℕ → List (String × ℕ) × List ℕ × List ℕ
  | 0, _, _, remaining, _ => ([], [], remaining)
  | fuel + 1, capacity_left, current, remaining, used =>
    let take := min (remaining.getD current 0) capacity_left
    let pick : String × ℕ := ((depots.getD current default).id, take)
    let remaining2 := remaining.set current (remaining.getD current 0 - take)
    let used2 := current :: used
    if take = capacity_left then ([pick], [current], remaining2)
    else
      let candidates := (List.range remaining2.length).filter
        (fun j => decide (0 < remaining2.getD j 0 ∧ j ∉ used2))
      if candidates = [] then ([pick], [current], remaining2)
      else
        let next := fold_min_by
          (fun j => dist (depot_coord depots current) (depot_coord depots j))
          (candidates.headD 0) candidates.tail
        let rest := greedy_fill_go dist depots fuel (capacity_left - take) next remaining2 used2
        (pick :: rest.1, current :: rest.2.1, rest.2.2)

/-- The spec-side greedy fill for one vehicle. -/
def greedy_fill_spec (dist : Coord → Coord → ℚ) (depots : List Depot)
    (capacity_left current : ℕ) (remaining used : List ℕ) :
    List (String × ℕ) × List ℕ × List ℕ :=
  greedy_fill_go dist depots capacity_left capacity_left current remaining used

/-- Two identical segment queries for the cache witness. -/
def qs_w : List (Coord × Coord) := [((0, 0), (1, 1)), ((0, 0), (1, 1))]

/-- External-call outcomes for the cache witness: a first success, and a
different second answer that must never be fetched. -/
def resp_w : List (Option SegResult) := [some ⟨1, 2, []⟩, some ⟨3, 4, []⟩]

/-- The cleared cache state at the start of a run, for the witness. -/
def st_w : OsrmState := { cache := [], responses := resp_w, calls := [] }

/-! ### Lemmas and claim theorems -/

/-- Python `min(c :: cs, key=f)` returns an element of its argument. -/
theorem fold_min_by_mem (f : ℕ → ℚ) :
    ∀ (cs : List ℕ) (c : ℕ), fold_min_by f c cs ∈ c :: cs := by
  intro cs
  induction cs with
  | nil =>
    intro c
    exact List.mem_cons_self c []
  | cons a cs ih =>
    intro c
    rw [fold_min_by, List.foldl_cons]
    have := ih (if f a < f c then a else c)
    rw [fold_min_by] at this
    rcases List.mem_cons.mp this with he | hm
    · rw [he]
      split_ifs
      · exact List.mem_cons_of_mem c (List.mem_cons_self a cs)
      · exact List.mem_cons_self c (a :: cs)
    · exact List.mem_cons_of_mem c (List.mem_cons_of_mem a hm)

/-- Python `max(c :: cs, key=remaining)` returns an element of its
argument. -/
theorem fold_max_remaining_mem (remaining : List ℕ) :
    ∀ (cs : List ℕ) (c : ℕ), fold_max_remaining remaining c cs ∈ c :: cs := by
  intro cs
  induction cs with
  | nil =>
    intro c
    exact List.mem_cons_self c []
  | cons a cs ih =>
    intro c
    rw [fold_max_remaining, List.foldl_cons]
    have := ih (if remaining.getD c 0 < remaining.getD a 0 then a else c)
    rw [fold_max_remaining] at this
    rcases List.mem_cons.mp this with he | hm
    · rw [he]
      split_ifs
      · exact List.mem_cons_of_mem c (List.mem_cons_self a cs)
      · exact List.mem_cons_self c (a :: cs)
    · exact List.mem_cons_of_mem c (List.mem_cons_of_mem a hm)

/-- One step of the running-maximum fold. -/
theorem fold_max_remaining_cons (remaining : List ℕ) (c a : ℕ) (cs : List ℕ) :
    fold_max_remaining remaining c (a :: cs) =
    fold_max_remaining remaining
      (if remaining.getD c 0 < remaining.getD a 0 then a else c) cs := by
  rw [fold_max_remaining, fold_max_remaining, List.foldl_cons]

/-- The fold keeps an element of maximal remaining demand. -/
theorem fold_max_remaining_ge (remaining : List ℕ) :
    ∀ (cs : List ℕ) (c : ℕ), ∀ j ∈ c :: cs,
      remaining.getD j 0 ≤ remaining.getD (fold_max_remaining remaining c cs) 0 := by
  intro cs
  induction cs with
  | nil =>
    intro c j hj
    rcases List.mem_cons.mp hj with rfl | hj'
    · exact le_refl _
    · simp at hj'
  | cons a cs ih =>
    intro c j hj
    rw [fold_max_remaining_cons]
    have hbest := ih (if remaining.getD c 0 < remaining.getD a 0 then a else c)
      (if remaining.getD c 0 < remaining.getD a 0 then a else c)
      (List.mem_cons_self _ _)
    rcases List.mem_cons.mp hj with rfl | hj'
    · refine le_trans ?_ hbest
      split_ifs with hca
      · exact le_of_lt hca
      · exact le_refl _
    · rcases List.mem_cons.mp hj' with rfl | hj2
      · refine le_trans ?_ hbest
        split_ifs with hca
        · exact le_refl _
        · exact le_of_not_lt hca
      · exact ih _ j (List.mem_cons_of_mem _ hj2)

/-- First-occurrence tie-break of the fold: the list splits around the
returned element, and everything before it has strictly smaller remaining
demand. -/
theorem fold_max_remaining_first (remaining : List ℕ) :
    ∀ (cs : List ℕ) (c : ℕ), ∃ l1 l2,
      c :: cs = l1 ++ (fold_max_remaining remaining c cs) :: l2 ∧
      ∀ j ∈ l1, remaining.getD j 0 < remaining.getD (fold_max_remaining remaining c cs) 0 := by
  intro cs
  induction cs with
  | nil =>
    intro c
    exact ⟨[], [], rfl, by simp⟩
  | cons a cs ih =>
    intro c
    rw [fold_max_remaining_cons]
    by_cases hca : remaining.getD c 0 < remaining.getD a 0
    · rw [if_pos hca]
      rcases ih a with ⟨l1, l2, hsplit, hlt⟩
      have hge := fold_max_remaining_ge remaining cs a a (List.mem_cons_self _ _)
      refine ⟨c :: l1, l2, ?_, ?_⟩
      · rw [List.cons_append, ← hsplit]
      · intro j hj
        rcases List.mem_cons.mp hj with rfl | hj'
        · exact lt_of_lt_of_le hca hge
        · exact hlt j hj'
    · rw [if_neg hca]
      rcases ih c with ⟨l1, l2, hsplit, hlt⟩
      rcases l1 with _ | ⟨x, l1'⟩
      · rw [List.nil_append] at hsplit
        have hc : fold_max_remaining remaining c cs = c :=
          (((List.cons.injEq _ _ _ _).mp hsplit).1).symm
        refine ⟨[], a :: cs, ?_, by simp⟩
        rw [List.nil_append, hc]
      · rw [List.cons_append] at hsplit
        have hx : x = c := ((List.cons.injEq _ _ _ _).mp hsplit).1.symm
        have hcs : cs = l1' ++ fold_max_remaining remaining c cs :: l2 :=
          ((List.cons.injEq _ _ _ _).mp hsplit).2
        subst hx
        refine ⟨x :: a :: l1', l2, ?_, ?_⟩
        · rw [List.cons_append, List.cons_append, ← hcs]
        · intro j hj
          rcases List.mem_cons.mp hj with rfl | hj'
          · exact hlt j (List.mem_cons_self _ _)
          · rcases List.mem_cons.mp hj' with rfl | hj2
            · exact lt_of_le_of_lt (le_of_not_lt hca) (hlt x (List.mem_cons_self _ _))
            · exact hlt j (List.mem_cons_of_mem _ hj2)

/-- The best-so-far update keeps a cost no larger than both the incoming
best and the new candidate. -/
theorem update_best_le (b : Option (Solution × ℚ)) (x p : Solution × ℚ)
    (h : update_best b x = some p) :
    p.2 ≤ x.2 ∧ ∀ pb, b = some pb → p.2 ≤ pb.2 := by
  cases b with
  | none =>
    rw [update_best] at h
    cases h
    exact ⟨le_refl _, fun pb hpb => by cases hpb⟩
  | some q =>
    rw [update_best] at h
    split_ifs at h with hlt
    · cases h
      exact ⟨le_refl _, fun pb hpb => by cases hpb; exact le_of_lt hlt⟩
    · cases h
      exact ⟨le_of_not_lt hlt, fun pb hpb => by cases hpb; exact le_refl _⟩

/-- The update always returns a candidate that was either the incoming
best or the new pair. -/
theorem update_best_cases (b : Option (Solution × ℚ)) (x p : Solution × ℚ)
    (h : update_best b x = some p) : p = x ∨ b = some p := by
  cases b with
  | none =>
    rw [update_best] at h
    cases h
    exact Or.inl rfl
  | some q =>
    rw [update_best] at h
    split_ifs at h with hlt
    · cases h
      exact Or.inl rfl
    · cases h
      exact Or.inr rfl

/-- Folding the best-so-far update yields a pair from the list or the
initial best. -/
theorem foldl_update_best_mem :
    ∀ (xs : List (Solution × ℚ)) (b : Option (Solution × ℚ)) (p : Solution × ℚ),
      xs.foldl update_best b = some p → p ∈ xs ∨ b = some p := by
  intro xs
  induction xs with
  | nil =>
    intro b p h
    exact Or.inr h
  | cons x xs ih =>
    intro b p h
    rw [List.foldl_cons] at h
    rcases ih _ p h with hm | hb
    · exact Or.inl (List.mem_cons_of_mem x hm)
    · rcases update_best_cases b x p hb with rfl | hb2
      · exact Or.inl (List.mem_cons_self _ _)
      · exact Or.inr hb2

/-- Folding the best-so-far update yields the minimum cost of the list
and the initial best. -/
theorem foldl_update_best_le :
    ∀ (xs : List (Solution × ℚ)) (b : Option (Solution × ℚ)) (p : Solution × ℚ),
      xs.foldl update_best b = some p →
      (∀ q ∈ xs, p.2 ≤ q.2) ∧ ∀ pb, b = some pb → p.2 ≤ pb.2 := by
  intro xs
  induction xs with
  | nil =>
    intro b p h
    rw [List.foldl_nil] at h
    refine ⟨by simp, fun pb hpb => ?_⟩
    rw [h] at hpb
    cases hpb
    exact le_refl _
  | cons x xs ih =>
    intro b p h
    rw [List.foldl_cons] at h
    rcases ih _ p h with ⟨hxs, hb'⟩
    have hub : ∃ p2, update_best b x = some p2 := by
      cases b with
      | none => exact ⟨x, rfl⟩
      | some q =>
        rw [update_best]
        split_ifs
        · exact ⟨x, rfl⟩
        · exact ⟨q, rfl⟩
    rcases hub with ⟨p2, hp2⟩
    rcases update_best_le b x p2 hp2 with ⟨hx2, hb2⟩
    have hpp2 : p.2 ≤ p2.2 := hb' p2 hp2
    constructor
    · intro q hq
      rcases List.mem_cons.mp hq with rfl | hq'
      · exact le_trans hpp2 hx2
      · exact hxs q hq'
    · intro pb hpb
      exact le_trans hpp2 (hb2 pb hpb)

/-- The generation fold equals one fold of the update over the flattened
stream of scored pairs. -/
theorem run_generations_eq_flatten_fold :
    ∀ (gens : List (List (Solution × ℚ))) (b : Option (Solution × ℚ)),
      gens.foldl (fun b2 g => g.foldl update_best b2) b =
        gens.flatten.foldl update_best b := by
  intro gens
  induction gens with
  | nil =>
    intro b
    rfl
  | cons g gs ih =>
    intro b
    rw [List.foldl_cons, List.flatten_cons, List.foldl_append, ih]

/-- C4: across the generations of one run, the tracked best cost never
increases, and the pair returned at termination is a minimum-cost pair
among all scored (Solution, cost) pairs of all generations — not
necessarily one of the final generation.  `gens` abstracts the stream of
per-generation evaluation results that lines 383-396 iterate over. -/
theorem best_cost_monotone_and_min :
    (∀ (gens : List (List (Solution × ℚ))) (k : ℕ) (s s2 : Solution) (c c2 : ℚ),
      run_generations (gens.take k) = some (s, c) →
      run_generations (gens.take (k + 1)) = some (s2, c2) → c2 ≤ c)
    ∧ (∀ (gens : List (List (Solution × ℚ))) (s : Solution) (c : ℚ),
      run_generations gens = some (s, c) →
      (s, c) ∈ gens.flatten ∧ ∀ p ∈ gens.flatten, c ≤ p.2) := by
  constructor
  · intro gens k s s2 c c2 hk hk1
    rw [run_generations, run_generations_eq_flatten_fold] at hk hk1
    rw [List.take_succ, List.flatten_append, List.foldl_append, hk] at hk1
    have := (foldl_update_best_le _ _ _ hk1).2 (s, c) rfl
    exact this
  · intro gens s c h
    rw [run_generations, run_generations_eq_flatten_fold] at h
    constructor
    · rcases foldl_update_best_mem _ _ _ h with hm | hb
      · exact hm
      · cases hb
    · intro p hp
      exact (foldl_update_best_le _ _ _ h).1 p hp

/-- Witness for C4 on a concrete two-generation stream: the best cost
drops from 5 to 3 and the returned pair is the minimum over both
generations. -/
theorem best_cost_monotone_and_min_witness :
    (run_generations (gens_w.take 1) = some (default, 5) ∧
     run_generations (gens_w.take 2) = some (default, 3) ∧ (3 : ℚ) ≤ 5) ∧
    ((default, (3 : ℚ)) ∈ gens_w.flatten ∧ ∀ p ∈ gens_w.flatten, (3 : ℚ) ≤ p.2) :=
  ⟨⟨by decide, by decide,
    best_cost_monotone_and_min.1 gens_w 1 default default 5 3 (by decide) (by decide)⟩,
   best_cost_monotone_and_min.2 gens_w default 3 (by decide)⟩

/-- The fuel of `pickup_go` is irrelevant as long as it is at least
`capacity_left`: every iteration consumes at least one seat. -/
theorem pickup_go_fuel_irrel (dist : Coord → Coord → ℚ) (depots : List Depot) :
    ∀ fuel fuel2 capacity_left current remaining used,
      capacity_left ≤ fuel → capacity_left ≤ fuel2 →
      pickup_go dist depots fuel capacity_left current remaining used =
      pickup_go dist depots fuel2 capacity_left current remaining used := by
  intro fuel
  induction fuel with
  | zero =>
    intro fuel2 cap cur rem used h1 _
    interval_cases cap
    cases fuel2 <;> rfl
  | succ n ih =>
    intro fuel2 cap cur rem used h1 h2
    match cap, fuel2 with
    | 0, 0 => rfl
    | 0, f + 1 => rfl
    | c + 1, f + 1 =>
      rw [pickup_go, pickup_go]
      rcases Decidable.em (rem.getD cur 0 = 0 ∨ cur ∈ used) with h | h
      · rw [if_pos h, if_pos h]
      · rw [if_neg h, if_neg h]
        have htake : 1 ≤ min (rem.getD cur 0) (c + 1) := by
          rcases Decidable.em (rem.getD cur 0 = 0) with h0 | h0
          · exact absurd (Or.inl h0) h
          · omega
        simp only []
        rcases Decidable.em (c + 1 - min (rem.getD cur 0) (c + 1) = 0) with hc | hc
        · rw [if_pos hc, if_pos hc]
        · rw [if_neg hc, if_neg hc]
          rcases Decidable.em ((List.range (rem.set cur (rem.getD cur 0 - min (rem.getD cur 0) (c + 1))).length).filter
              (fun j => decide (0 < (rem.set cur (rem.getD cur 0 - min (rem.getD cur 0) (c + 1))).getD j 0 ∧
                j ∉ cur :: used)) = []) with hfc | hfc
          · rw [if_pos hfc, if_pos hfc]
          · rw [if_neg hfc, if_neg hfc]
            rw [ih f _ _ _ _ (by omega) (by omega)]

/-- The defining equation of the while loop: `pickup_loop` unfolds to its
own body with the reduced capacity, exactly as the source loop. -/
theorem pickup_loop_eq (dist : Coord → Coord → ℚ) (depots : List Depot)
    (capacity_left current : ℕ) (remaining used : List ℕ) :
    pickup_loop dist depots capacity_left current remaining used =
    (if capacity_left = 0 then ([], [], remaining)
     else if remaining.getD current 0 = 0 ∨ current ∈ used then ([], [], remaining)
     else
      let take := min (remaining.getD current 0) capacity_left
      let pick : String × ℕ := ((depots.getD current default).id, take)
      let remaining2 := remaining.set current (remaining.getD current 0 - take)
      let used2 := current :: used
      let cap2 := capacity_left - take
      if cap2 = 0 then ([pick], [current], remaining2)
      else
        let candidates := (List.range remaining2.length).filter
          (fun j => decide (0 < remaining2.getD j 0 ∧ j ∉ used2))
        if candidates = [] then ([pick], [current], remaining2)
        else
          let next := fold_min_by
            (fun j => dist (depot_coord depots current) (depot_coord depots j))
            (candidates.headD 0) candidates.tail
          let rest := pickup_loop dist depots cap2 next remaining2 used2
          (pick :: rest.1, current :: rest.2.1, rest.2.2)) := by
  unfold pickup_loop
  match capacity_left with
  | 0 => rfl
  | c + 1 =>
    rw [pickup_go]
    rw [if_neg (by omega : ¬(c + 1 = 0))]
    rcases Decidable.em (remaining.getD current 0 = 0 ∨ current ∈ used) with h | h
    · rw [if_pos h, if_pos h]
    · rw [if_neg h, if_neg h]
      have htake : 1 ≤ min (remaining.getD current 0) (c + 1) := by
        rcases Decidable.em (remaining.getD current 0 = 0) with h0 | h0
        · exact absurd (Or.inl h0) h
        · omega
      simp only []
      rcases Decidable.em (c + 1 - min (remaining.getD current 0) (c + 1) = 0) with hc | hc
      · rw [if_pos hc, if_pos hc]
      · rw [if_neg hc, if_neg hc]
        rcases Decidable.em ((List.range (remaining.set current
              (remaining.getD current 0 - min (remaining.getD current 0) (c + 1))).length).filter
            (fun j => decide (0 < (remaining.set current
              (remaining.getD current 0 - min (remaining.getD current 0) (c + 1))).getD j 0 ∧
              j ∉ current :: used)) = []) with hfc | hfc
        · rw [if_pos hfc, if_pos hfc]
        · rw [if_neg hfc, if_neg hfc]
          rw [pickup_go_fuel_irrel dist depots c
            (c + 1 - min (remaining.getD current 0) (c + 1)) _ _ _ _ (by omega) (by omega)]

/-- Helper: mapping the capacity over a replicate-expansion of a
capacity-sorted owned-type list is sorted. -/
theorem pairwise_flatMap_replicate (l : List OwnedVehicleType)
    (hl : l.Pairwise (fun a b => a.capacity ≤ b.capacity)) :
    ((l.flatMap (fun o => List.replicate o.count
      (VehicleInst.mk o.type_id o.capacity o.cost_per_km true))).map
        VehicleInst.capacity).Pairwise (· ≤ ·) := by
  induction l with
  | nil => simp
  | cons a l ih =>
    rcases List.pairwise_cons.mp hl with ⟨ha, hl'⟩
    simp only [List.flatMap_cons, List.map_append, List.map_replicate]
    rw [List.pairwise_append]
    refine ⟨?_, ih hl', ?_⟩
    · rw [List.pairwise_replicate]
      right
      exact le_refl _
    · intro x hx y hy
      have hxa := List.eq_of_mem_replicate hx
      rcases List.mem_map.mp hy with ⟨v, hv, rfl⟩
      rcases List.mem_flatMap.mp hv with ⟨b, hb, hvb⟩
      have := List.eq_of_mem_replicate hvb
      subst this
      subst hxa
      exact ha b hb

/-- The condition that insertion sort by capacity produces a
capacity-sorted list, for owned vehicle types. -/
theorem sorted_owned_by_capacity (l : List OwnedVehicleType) :
    (List.insertionSort (fun a b => a.capacity ≤ b.capacity) l).Pairwise
      (fun a b => a.capacity ≤ b.capacity) := by
  haveI : IsTotal OwnedVehicleType (fun a b => a.capacity ≤ b.capacity) :=
    ⟨fun a b => Nat.le_total a.capacity b.capacity⟩
  haveI : IsTrans OwnedVehicleType (fun a b => a.capacity ≤ b.capacity) :=
    ⟨fun _ _ _ h1 h2 => Nat.le_trans h1 h2⟩
  exact List.sorted_insertionSort _ l

/-- The same for rented vehicle types. -/
theorem sorted_rented_by_capacity (l : List RentedVehicleType) :
    (List.insertionSort (fun a b => a.capacity ≤ b.capacity) l).Pairwise
      (fun a b => a.capacity ≤ b.capacity) := by
  haveI : IsTotal RentedVehicleType (fun a b => a.capacity ≤ b.capacity) :=
    ⟨fun a b => Nat.le_total a.capacity b.capacity⟩
  haveI : IsTrans RentedVehicleType (fun a b => a.capacity ≤ b.capacity) :=
    ⟨fun _ _ _ h1 h2 => Nat.le_trans h1 h2⟩
  exact List.sorted_insertionSort _ l

/-- A positive `getD` entry lies within the list. -/
theorem lt_length_of_getD_pos (l : List ℕ) (i : ℕ) (h : l.getD i 0 ≠ 0) :
    i < l.length := by
  by_contra hge
  rw [List.getD_eq_getElem?_getD, List.getElem?_eq_none (by omega)] at h
  exact h rfl

/-- The head of a nonempty list is a member of it. -/
theorem headI_mem_of_ne_nil {α : Type} [Inhabited α] (l : List α) (h : l ≠ []) :
    l.headI ∈ l := by
  cases l with
  | nil => exact absurd rfl h
  | cons a l => exact List.mem_cons_self a l

/-- The pickup loop never takes more passengers than the capacity it was
given. -/
theorem pickup_go_sum_le (dist : Coord → Coord → ℚ) (depots : List Depot) :
    ∀ fuel cap cur remaining used,
      (((pickup_go dist depots fuel cap cur remaining used).1).map Prod.snd).sum ≤ cap := by
  intro fuel
  induction fuel with
  | zero =>
    intro cap cur rem used
    rcases cap with _ | c <;> simp [pickup_go]
  | succ n ih =>
    intro cap cur rem used
    rcases cap with _ | c
    · simp [pickup_go]
    · simp only [pickup_go]
      split_ifs with h1 h2 h3
      · simp
      · simp
      · simp
      · simp only [List.map_cons, List.sum_cons]
        exact le_trans (Nat.add_le_add_left (ih _ _ _ _) _) (by omega)

/-- Unfolding `picked` over a cons cell. -/
theorem picked_cons (p : String × ℕ) (ps : List (String × ℕ)) (did : String) :
    picked (p :: ps) did = (if p.1 = did then p.2 else 0) + picked ps did := by
  by_cases h : p.1 = did
  · simp [picked, List.filter_cons, h]
  · simp [picked, List.filter_cons, h]

/-- `getD` after a `set` at the same (in-range) position. -/
theorem getD_set_self (l : List ℕ) (i v : ℕ) (h : i < l.length) :
    (l.set i v).getD i 0 = v := by
  rw [List.getD_eq_getElem?_getD, List.getElem?_set_eq_of_lt v h]
  rfl

/-- `getD` after a `set` at a different position. -/
theorem getD_set_ne (l : List ℕ) (i j v : ℕ) (h : i ≠ j) :
    (l.set i v).getD j 0 = l.getD j 0 := by
  rw [List.getD_eq_getElem?_getD, List.getElem?_set_ne h, ← List.getD_eq_getElem?_getD]

/-- Distinct depot indices carry distinct ids when the instance's depot
ids are pairwise distinct. -/
theorem depot_id_inj (depots : List Depot) (hids : (depots.map Depot.id).Nodup)
    (i j : ℕ) (hi : i < depots.length) (hj : j < depots.length) (hij : i ≠ j) :
    (depots.getD i default).id ≠ (depots.getD j default).id := by
  intro he
  have hi' : i < (depots.map Depot.id).length := by simpa using hi
  have hj' : j < (depots.map Depot.id).length := by simpa using hj
  have hg : (depots.map Depot.id).get ⟨i, hi'⟩ = (depots.map Depot.id).get ⟨j, hj'⟩ := by
    simp only [List.get_eq_getElem, List.getElem_map]
    rw [← List.getD_eq_getElem (depots) default hi, ← List.getD_eq_getElem (depots) default hj]
    exact he
  have := (hids.get_inj_iff).mp hg
  exact hij (by simpa using this)

/-- The pickup ids are exactly the ids of the visited depot indices, in
order. -/
theorem pickup_go_fst (dist : Coord → Coord → ℚ) (depots : List Depot) :
    ∀ fuel cap cur remaining used,
      ((pickup_go dist depots fuel cap cur remaining used).1).map Prod.fst =
      ((pickup_go dist depots fuel cap cur remaining used).2.1).map
        (fun i => (depots.getD i default).id) := by
  intro fuel
  induction fuel with
  | zero =>
    intro cap cur rem used
    rcases cap with _ | c <;> simp [pickup_go]
  | succ n ih =>
    intro cap cur rem used
    rcases cap with _ | c
    · simp [pickup_go]
    · simp only [pickup_go]
      split_ifs with h1 h2 h3
      · simp
      · simp
      · simp
      · simp only [List.map_cons, List.cons.injEq]
        exact ⟨trivial, ih _ _ _ _⟩

/-- The visited indices of one vehicle are distinct and disjoint from the
incoming `used` set. -/
theorem pickup_go_ordered_nodup (dist : Coord → Coord → ℚ) (depots : List Depot) :
    ∀ fuel cap cur remaining used,
      ((pickup_go dist depots fuel cap cur remaining used).2.1).Nodup ∧
      ∀ i ∈ (pickup_go dist depots fuel cap cur remaining used).2.1, i ∉ used := by
  intro fuel
  induction fuel with
  | zero =>
    intro cap cur rem used
    rcases cap with _ | c <;> simp [pickup_go]
  | succ n ih =>
    intro cap cur rem used
    rcases cap with _ | c
    · simp [pickup_go]
    · simp only [pickup_go]
      split_ifs with h1 h2 h3
      · simp
      · push_neg at h1
        simp [h1.2]
      · push_neg at h1
        simp [h1.2]
      · push_neg at h1
        rcases ih (c + 1 - min (rem.getD cur 0) (c + 1)) _ _ _ with ⟨hnd, hfresh⟩
        constructor
        · rw [List.nodup_cons]
          exact ⟨fun hmem => (hfresh cur hmem) (List.mem_cons_self cur used), hnd⟩
        · intro i hi
          rcases List.mem_cons.mp hi with rfl | hi'
          · exact h1.2
          · intro hiu
            exact (hfresh i hi') (List.mem_cons_of_mem cur hiu)

/-- Every visited index is in range of the remaining-demand list. -/
theorem pickup_go_ordered_lt (dist : Coord → Coord → ℚ) (depots : List Depot) :
    ∀ fuel cap cur remaining used,
      ∀ i ∈ (pickup_go dist depots fuel cap cur remaining used).2.1,
        i < remaining.length := by
  intro fuel
  induction fuel with
  | zero =>
    intro cap cur rem used
    rcases cap with _ | c <;> simp [pickup_go]
  | succ n ih =>
    intro cap cur rem used
    rcases cap with _ | c
    · simp [pickup_go]
    · simp only [pickup_go]
      split_ifs with h1 h2 h3
      · simp
      · push_neg at h1
        simp only [List.mem_singleton]
        rintro i rfl
        exact lt_length_of_getD_pos rem i h1.1
      · push_neg at h1
        simp only [List.mem_singleton]
        rintro i rfl
        exact lt_length_of_getD_pos rem i h1.1
      · push_neg at h1
        intro i hi
        rcases List.mem_cons.mp hi with rfl | hi'
        · exact lt_length_of_getD_pos rem i h1.1
        · have := ih _ _ _ _ i hi'
          simpa using this

/-- The remaining-demand list keeps its length through the loop. -/
theorem pickup_go_rem_length (dist : Coord → Coord → ℚ) (depots : List Depot) :
    ∀ fuel cap cur remaining used,
      ((pickup_go dist depots fuel cap cur remaining used).2.2).length =
        remaining.length := by
  intro fuel
  induction fuel with
  | zero =>
    intro cap cur rem used
    rcases cap with _ | c <;> simp [pickup_go]
  | succ n ih =>
    intro cap cur rem used
    rcases cap with _ | c
    · simp [pickup_go]
    · simp only [pickup_go]
      split_ifs with h1 h2 h3
      · simp
      · simp
      · simp
      · rw [ih _ _ _ _]
        simp

/-- Per-depot conservation through one vehicle's loop: for every in-range
index, the passengers picked at that depot's id plus the depot's final
remaining demand equal its initial remaining demand (assuming distinct
depot ids). -/
theorem pickup_go_accounting (dist : Coord → Coord → ℚ) (depots : List Depot)
    (hids : (depots.map Depot.id).Nodup) :
    ∀ fuel cap cur remaining used, remaining.length ≤ depots.length →
      ∀ i, i < remaining.length →
        picked (pickup_go dist depots fuel cap cur remaining used).1
            ((depots.getD i default).id) +
          ((pickup_go dist depots fuel cap cur remaining used).2.2).getD i 0 =
        remaining.getD i 0 := by
  intro fuel
  induction fuel with
  | zero =>
    intro cap cur rem used hlen i hi
    rcases cap with _ | c <;> simp [pickup_go, picked]
  | succ n ih =>
    intro cap cur rem used hlen i hi
    rcases cap with _ | c
    · simp [pickup_go, picked]
    · simp only [pickup_go]
      split_ifs with h1 h2 h3
      · simp [picked]
      · push_neg at h1
        have hcur : cur < rem.length := lt_length_of_getD_pos rem cur h1.1
        rcases Decidable.em (i = cur) with rfl | hne
        · rw [picked_cons, if_pos rfl, getD_set_self rem _ _ hcur]
          simp [picked]
        · rw [picked_cons,
            if_neg (depot_id_inj depots hids cur i (by omega) (by omega) (fun hh => hne hh.symm)),
            getD_set_ne rem cur i _ (fun hh => hne hh.symm)]
          simp [picked]
      · push_neg at h1
        have hcur : cur < rem.length := lt_length_of_getD_pos rem cur h1.1
        rcases Decidable.em (i = cur) with rfl | hne
        · rw [picked_cons, if_pos rfl, getD_set_self rem _ _ hcur]
          simp [picked]
        · rw [picked_cons,
            if_neg (depot_id_inj depots hids cur i (by omega) (by omega) (fun hh => hne hh.symm)),
            getD_set_ne rem cur i _ (fun hh => hne hh.symm)]
          simp [picked]
      · push_neg at h1
        have hcur : cur < rem.length := lt_length_of_getD_pos rem cur h1.1
        have hrec := fun cur2 used2 =>
          ih (c + 1 - min (rem.getD cur 0) (c + 1)) cur2
            (rem.set cur (rem.getD cur 0 - min (rem.getD cur 0) (c + 1))) used2
            (by rw [List.length_set]; exact hlen) i
            (by rw [List.length_set]; exact hi)
        rcases Decidable.em (i = cur) with rfl | hne
        · rw [picked_cons, add_assoc, hrec _ _, if_pos rfl, getD_set_self rem _ _ hcur]
          omega
        · rw [picked_cons, add_assoc, hrec _ _,
            if_neg (depot_id_inj depots hids cur i (by omega) (by omega) (fun hh => hne hh.symm)),
            getD_set_ne rem cur i _ (fun hh => hne hh.symm)]
          omega

/-- Every route of `build_routes` is `make_route` applied to the pickup
loop's output for some vehicle, a nonempty pickup list, and a
remaining-demand list of the same length as the input one. -/
theorem build_routes_mem (dist : Coord → Coord → ℚ) (inst : Instance) (shift : Shift) :
    ∀ vehicles rem r, r ∈ (build_routes dist inst shift vehicles rem).1 →
      ∃ v rem0 start,
        r = make_route dist inst shift v
          (pickup_loop dist inst.depots v.capacity start rem0 []).1
          (pickup_loop dist inst.depots v.capacity start rem0 []).2.1 ∧
        (pickup_loop dist inst.depots v.capacity start rem0 []).1 ≠ [] ∧
        rem0.length = rem.length := by
  intro vehicles
  induction vehicles with
  | nil =>
    intro rem r hr
    simp [build_routes] at hr
  | cons v vs ih =>
    intro rem r hr
    rw [build_routes] at hr
    split_ifs at hr with hd
    · simp at hr
    · rcases ha : argmax_remaining rem with _ | start <;> rw [ha] at hr
      · simp at hr
      · simp only [] at hr
        split_ifs at hr with hem
        · rcases ih _ r hr with ⟨v2, rem0, start2, he, hne, hlen⟩
          refine ⟨v2, rem0, start2, he, hne, ?_⟩
          rw [hlen]
          exact pickup_go_rem_length dist inst.depots _ _ _ _ _
        · rcases List.mem_cons.mp hr with rfl | hr'
          · exact ⟨v, rem, start, rfl, hem, rfl⟩
          · rcases ih _ r hr' with ⟨v2, rem0, start2, he, hne, hlen⟩
            refine ⟨v2, rem0, start2, he, hne, ?_⟩
            rw [hlen]
            exact pickup_go_rem_length dist inst.depots _ _ _ _ _

/-- Per-depot conservation through the whole vehicle loop. -/
theorem build_routes_accounting (dist : Coord → Coord → ℚ) (inst : Instance)
    (shift : Shift) (hids : (inst.depots.map Depot.id).Nodup) :
    ∀ vehicles rem, rem.length ≤ inst.depots.length →
      ∀ i, i < rem.length →
        picked_total (build_routes dist inst shift vehicles rem).1
            ((inst.depots.getD i default).id) +
          ((build_routes dist inst shift vehicles rem).2.2).getD i 0 =
        rem.getD i 0 := by
  intro vehicles
  induction vehicles with
  | nil =>
    intro rem hlen i hi
    simp [build_routes, picked_total]
  | cons v vs ih =>
    intro rem hlen i hi
    rw [build_routes]
    split_ifs with hd
    · simp [picked_total]
    · rcases ha : argmax_remaining rem with _ | start
      · simp [picked_total]
      · simp only []
        have hlen2 : ((pickup_loop dist inst.depots v.capacity start rem []).2.2).length
            = rem.length := pickup_go_rem_length dist inst.depots _ _ _ _ _
        have hacc : picked (pickup_loop dist inst.depots v.capacity start rem []).1
              ((inst.depots.getD i default).id) +
            ((pickup_loop dist inst.depots v.capacity start rem []).2.2).getD i 0 =
            rem.getD i 0 :=
          pickup_go_accounting dist inst.depots hids v.capacity v.capacity
            start rem [] hlen i hi
        have hrec := ih (pickup_loop dist inst.depots v.capacity start rem []).2.2
          (by rw [hlen2]; exact hlen) i (by rw [hlen2]; exact hi)
        split_ifs with hem
        · rw [hem] at hacc
          simp only [picked, List.filter_nil, List.map_nil, List.sum_nil] at hacc
          rw [hrec]
          omega
        · simp only [picked_total, List.map_cons, List.sum_cons]
          simp only [picked_total] at hrec
          change picked (pickup_loop dist inst.depots v.capacity start rem []).1
              ((inst.depots.getD i default).id) + _ + _ = _
          omega

/-- Replacing every binding of key `k` by `(k, v)` makes reading `k`
return `v`, provided `k` was bound. -/
theorem lookup_replace_self :
    ∀ (m : List (String × ℤ)) (k : String) (v : ℤ), (m.lookup k).isSome →
      (m.map (fun p => if p.1 = k then (k, v) else p)).lookup k = some v := by
  intro m
  induction m with
  | nil =>
    intro k v hp
    simp [List.lookup] at hp
  | cons p m' ih =>
    intro k v hp
    obtain ⟨pk, pv⟩ := p
    by_cases hk : pk = k
    · subst hk
      rw [List.map_cons, if_pos rfl, List.lookup_cons, beq_self_eq_true]
    · have hb : (k == pk) = false := by
        rw [beq_eq_false_iff_ne]
        exact fun hh => hk hh.symm
      rw [List.lookup_cons, hb] at hp
      rw [List.map_cons]
      simp only [if_neg hk]
      rw [List.lookup_cons, hb]
      exact ih k v hp

/-- Replacing bindings of key `k` does not change reads of other keys. -/
theorem lookup_replace_ne :
    ∀ (m : List (String × ℤ)) (k k2 : String) (v : ℤ), k2 ≠ k →
      (m.map (fun p => if p.1 = k then (k, v) else p)).lookup k2 = m.lookup k2 := by
  intro m
  induction m with
  | nil =>
    intro k k2 v h
    simp
  | cons p m' ih =>
    intro k k2 v h
    obtain ⟨pk, pv⟩ := p
    by_cases hk : pk = k
    · subst hk
      have hb : (k2 == pk) = false := by
        rw [beq_eq_false_iff_ne]
        exact h
      rw [List.map_cons, if_pos rfl, List.lookup_cons, List.lookup_cons, hb]
      exact ih pk k2 v h
    · rw [List.map_cons, if_neg hk, List.lookup_cons, List.lookup_cons]
      rcases hbeq : (k2 == pk) with _ | _
      · exact ih k k2 v h
      · rfl

/-- Dict update then read of the same key. -/
theorem lookup_setZ_self (m : List (String × ℤ)) (k : String) (v : ℤ) :
    (setZ m k v).lookup k = some v := by
  by_cases hp : (m.lookup k).isSome
  · rw [setZ, if_pos hp]
    exact lookup_replace_self m k v hp
  · rw [setZ, if_neg hp]
    induction m with
    | nil => simp [List.lookup]
    | cons p m' ih =>
      obtain ⟨pk, pv⟩ := p
      rw [List.lookup_cons] at hp
      rcases hbeq : (k == pk) with _ | _
      · rw [hbeq] at hp
        rw [List.cons_append, List.lookup_cons, hbeq]
        exact ih hp
      · rw [hbeq] at hp
        simp at hp

/-- Dict update then read of a different key. -/
theorem lookup_setZ_ne (m : List (String × ℤ)) (k k2 : String) (v : ℤ)
    (h : k2 ≠ k) : (setZ m k v).lookup k2 = m.lookup k2 := by
  by_cases hp : (m.lookup k).isSome
  · rw [setZ, if_pos hp]
    exact lookup_replace_ne m k k2 v h
  · rw [setZ, if_neg hp]
    induction m with
    | nil =>
      simp [List.lookup]
      rw [beq_eq_false_iff_ne.mpr h]
    | cons p m' ih =>
      obtain ⟨pk, pv⟩ := p
      rw [List.lookup_cons] at hp
      rw [List.cons_append, List.lookup_cons, List.lookup_cons]
      rcases hbeq : (k2 == pk) with _ | _
      · rcases hbk : (k == pk) with _ | _
        · rw [hbk] at hp
          exact ih hp
        · rw [hbk] at hp
          simp at hp
      · rfl

/-- Folding the reporter's clamped leftover update over a pickup list
subtracts the total picked amount, clamped at zero once. -/
theorem lookupZ_fold_pickups :
    ∀ (ps : List (String × ℕ)) (m : List (String × ℤ)) (did : String),
      0 ≤ lookupZ m did →
      lookupZ (ps.foldl apply_pickup m) did =
        max 0 (lookupZ m did - (picked ps did : ℤ)) := by
  intro ps
  induction ps with
  | nil =>
    intro m did h
    simp only [List.foldl_nil, picked, List.filter_nil, List.map_nil, List.sum_nil,
      Nat.cast_zero, sub_zero]
    omega
  | cons p ps ih =>
    intro m did h
    obtain ⟨k, t⟩ := p
    rw [List.foldl_cons, picked_cons]
    by_cases hk : k = did
    · subst hk
      have hself : lookupZ (apply_pickup m (k, t)) k = max 0 (lookupZ m k - (t : ℤ)) := by
        rw [apply_pickup]
        rw [lookupZ, lookup_setZ_self]
        rfl
      rw [ih _ _ (by rw [hself]; exact le_max_left _ _), hself]
      have hp : 0 ≤ (picked ps k : ℤ) := Int.natCast_nonneg _
      rw [if_pos (rfl : (k, t).1 = k), Nat.cast_add]
      omega
    · have hne : lookupZ (apply_pickup m (k, t)) did = lookupZ m did := by
        rw [apply_pickup, lookupZ, lookup_setZ_ne m k did _ (fun hh => hk hh.symm)]
        rfl
      have hp : 0 ≤ (picked ps did : ℤ) := Int.natCast_nonneg _
      rw [ih _ _ (by rw [hne]; exact h), hne, if_neg hk, zero_add]

/-- The same over all routes of a Solution. -/
theorem lookupZ_fold_routes :
    ∀ (routes : List Route) (m : List (String × ℤ)) (did : String),
      0 ≤ lookupZ m did →
      lookupZ (routes.foldl route_leftovers m) did =
        max 0 (lookupZ m did - (picked_total routes did : ℤ)) := by
  intro routes
  induction routes with
  | nil =>
    intro m did h
    simp only [List.foldl_nil, picked_total, List.map_nil, List.sum_nil,
      Nat.cast_zero, sub_zero]
    omega
  | cons r rs ih =>
    intro m did h
    rw [List.foldl_cons]
    have hone : lookupZ (route_leftovers m r) did =
        max 0 (lookupZ m did - (picked r.pickups did : ℤ)) :=
      lookupZ_fold_pickups r.pickups m did h
    rw [ih _ _ (by rw [hone]; exact le_max_left _ _), hone]
    have hcons : picked_total (r :: rs) did = picked r.pickups did + picked_total rs did := by
      simp [picked_total]
    rw [hcons, Nat.cast_add]
    have hp : 0 ≤ (picked_total rs did : ℤ) := Int.natCast_nonneg _
    omega

/-- Folding the initializer over depots whose ids avoid `k` does not
touch the binding of `k`. -/
theorem lookup_fold_init_not_mem :
    ∀ (dp : List Depot) (m : List (String × ℤ)) (sid : String) (k : String),
      k ∉ dp.map Depot.id →
      (dp.foldl (fun m2 d2 => setZ m2 d2.id (d2.demand sid : ℤ)) m).lookup k =
        m.lookup k := by
  intro dp
  induction dp with
  | nil =>
    intro m sid k _
    rfl
  | cons d0 dp' ih =>
    intro m sid k hk
    rw [List.map_cons] at hk
    rw [List.foldl_cons, ih _ _ _ (fun hm => hk (List.mem_cons_of_mem _ hm)),
      lookup_setZ_ne _ _ _ _ (fun he => hk (by rw [he]; exact List.mem_cons_self _ _))]

/-- Reading the initialized leftover table at a depot's id returns that
depot's raw demand (given pairwise-distinct depot ids). -/
theorem lookupZ_fold_init :
    ∀ (dp : List Depot) (m : List (String × ℤ)) (sid : String) (d : Depot),
      (dp.map Depot.id).Nodup → d ∈ dp →
      lookupZ (dp.foldl (fun m2 d2 => setZ m2 d2.id (d2.demand sid : ℤ)) m) d.id =
        (d.demand sid : ℤ) := by
  intro dp
  induction dp with
  | nil =>
    intro m sid d _ hd
    simp at hd
  | cons d0 dp' ih =>
    intro m sid d hnd hd
    rw [List.map_cons, List.nodup_cons] at hnd
    rcases List.mem_cons.mp hd with rfl | hd'
    · rw [List.foldl_cons, lookupZ,
        lookup_fold_init_not_mem dp' _ sid d.id hnd.1, lookup_setZ_self]
      rfl
    · rw [List.foldl_cons]
      exact ih _ sid d hnd.2 hd'

/-- The routes of an evaluated Solution, unfolded. -/
theorem evaluate_routes_eq (dist : Coord → Coord → ℚ) (ch : Chromosome) (inst : Instance) :
    (evaluate_chromosome dist ch inst).1.routes =
    (build_routes dist inst inst.shifts.headI (vehicle_list inst.vehicles)
      (inst.depots.map (fun d => d.demand inst.shifts.headI.id))).1 :=
  rfl

/-- C1: in every Solution produced by chromosome evaluation, each route's
passenger count equals the sum of its per-depot pickups and never exceeds
its seat capacity. -/
theorem route_pickups_sum_eq_passengers_le_seats
    (dist : Coord → Coord → ℚ) (ch : Chromosome) (inst : Instance) (r : Route)
    (hr : r ∈ (evaluate_chromosome dist ch inst).1.routes) :
    (r.pickups.map Prod.snd).sum = r.passengers ∧ r.passengers ≤ r.seats := by
  rcases build_routes_mem dist inst inst.shifts.headI _ _ r hr with ⟨v, rem0, start, he, _, _⟩
  subst he
  exact ⟨rfl, pickup_go_sum_le dist inst.depots _ _ _ _ _⟩

/-- Witness for C1 at a concrete instance: the first constructed route
picks up 7 at depot B and 3 at depot A, summing to its 10 passengers on
10 seats. -/
theorem route_pickups_sum_witness :
    (evaluate_chromosome wit_dist wit_ch wit_inst).1.routes.headI ∈
      (evaluate_chromosome wit_dist wit_ch wit_inst).1.routes ∧
    (((evaluate_chromosome wit_dist wit_ch wit_inst).1.routes.headI.pickups.map
        Prod.snd).sum =
      (evaluate_chromosome wit_dist wit_ch wit_inst).1.routes.headI.passengers ∧
      (evaluate_chromosome wit_dist wit_ch wit_inst).1.routes.headI.passengers ≤
        (evaluate_chromosome wit_dist wit_ch wit_inst).1.routes.headI.seats) :=
  ⟨headI_mem_of_ne_nil _ (by decide),
    route_pickups_sum_eq_passengers_le_seats wit_dist wit_ch wit_inst _
      (headI_mem_of_ne_nil _ (by decide))⟩

/-- C2: with pairwise-distinct depot ids, no route produced by the greedy
builder visits a depot twice — both the ordered depot-id sequence and the
pickup ids of every route are duplicate-free. -/
theorem route_never_revisits_depot
    (dist : Coord → Coord → ℚ) (ch : Chromosome) (inst : Instance)
    (hids : (inst.depots.map Depot.id).Nodup) (r : Route)
    (hr : r ∈ (evaluate_chromosome dist ch inst).1.routes) :
    r.depot_ids.Nodup ∧ (r.pickups.map Prod.fst).Nodup := by
  rcases build_routes_mem dist inst inst.shifts.headI _ _ r hr with ⟨v, rem0, start, he, _, hlen⟩
  have hlen2 : rem0.length = inst.depots.length := by
    rw [hlen]
    simp [evaluate_chromosome]
  have hord : ((pickup_loop dist inst.depots v.capacity start rem0 []).2.1).Nodup :=
    (pickup_go_ordered_nodup dist inst.depots _ _ _ _ _).1
  have hlt : ∀ i ∈ (pickup_loop dist inst.depots v.capacity start rem0 []).2.1,
      i < inst.depots.length := by
    intro i hi
    rw [← hlen2]
    exact pickup_go_ordered_lt dist inst.depots _ _ _ _ _ i hi
  have hmap : (((pickup_loop dist inst.depots v.capacity start rem0 []).2.1).map
      (fun i => (inst.depots.getD i default).id)).Nodup := by
    refine List.Nodup.map_on ?_ hord
    intro x hx y hy hxy
    by_contra hne
    exact depot_id_inj inst.depots hids x y (hlt x hx) (hlt y hy) hne hxy
  subst he
  constructor
  · exact hmap
  · rw [make_route]
    simp only []
    unfold pickup_loop at hmap ⊢
    rw [pickup_go_fst]
    exact hmap

/-- Witness for C2 at the concrete instance: distinct depot ids, and the
first route's depot sequence ["B", "A"] is duplicate-free. -/
theorem route_never_revisits_depot_witness :
    (wit_inst.depots.map Depot.id).Nodup ∧
    (evaluate_chromosome wit_dist wit_ch wit_inst).1.routes.headI ∈
      (evaluate_chromosome wit_dist wit_ch wit_inst).1.routes ∧
    ((evaluate_chromosome wit_dist wit_ch wit_inst).1.routes.headI.depot_ids.Nodup ∧
      ((evaluate_chromosome wit_dist wit_ch wit_inst).1.routes.headI.pickups.map
        Prod.fst).Nodup) :=
  ⟨by decide, headI_mem_of_ne_nil _ (by decide),
    route_never_revisits_depot wit_dist wit_ch wit_inst (by decide) _
      (headI_mem_of_ne_nil _ (by decide))⟩

/-- C3: for every depot, the passengers picked up there across all routes
of an evaluated Solution never exceed that depot's shift demand, and the
reporter's recomputed leftover for that depot equals demand minus served,
clamped at zero (assuming pairwise-distinct depot ids). -/
theorem depot_served_le_demand_and_leftover
    (dist : Coord → Coord → ℚ) (ch : Chromosome) (inst : Instance)
    (hids : (inst.depots.map Depot.id).Nodup) (d : Depot) (hd : d ∈ inst.depots) :
    picked_total (evaluate_chromosome dist ch inst).1.routes d.id ≤
      d.demand inst.shifts.headI.id ∧
    lookupZ (generate_reports (evaluate_chromosome dist ch inst).1 inst).depot_leftovers d.id =
      max 0 ((d.demand inst.shifts.headI.id : ℤ) -
        (picked_total (evaluate_chromosome dist ch inst).1.routes d.id : ℤ)) := by
  rcases List.getElem_of_mem hd with ⟨i, hi, hgd⟩
  have hd_eq : inst.depots.getD i default = d := by
    rw [List.getD_eq_getElem _ default hi, hgd]
  have hi' : i < (inst.depots.map (fun d2 => d2.demand inst.shifts.headI.id)).length := by
    rw [List.length_map]
    exact hi
  have hdem : (inst.depots.map (fun d2 => d2.demand inst.shifts.headI.id)).getD i 0 =
      d.demand inst.shifts.headI.id := by
    rw [List.getD_eq_getElem _ 0 hi', List.getElem_map, hgd]
  have hacc := build_routes_accounting dist inst inst.shifts.headI hids
    (vehicle_list inst.vehicles)
    (inst.depots.map (fun d2 => d2.demand inst.shifts.headI.id))
    (le_of_eq (List.length_map _ _)) i hi'
  rw [hd_eq, hdem] at hacc
  rw [evaluate_routes_eq]
  constructor
  · omega
  · have hinit : lookupZ (init_leftovers inst inst.shifts.headI) d.id =
        (d.demand inst.shifts.headI.id : ℤ) :=
      lookupZ_fold_init inst.depots [] inst.shifts.headI.id d hids hd
    have hfold := lookupZ_fold_routes (evaluate_chromosome dist ch inst).1.routes
      (init_leftovers inst inst.shifts.headI) d.id
      (by rw [hinit]; exact Int.natCast_nonneg _)
    rw [hinit] at hfold
    rw [evaluate_routes_eq] at hfold
    exact hfold

/-- Witness for C3 at the concrete instance: depot A has demand 5, gets 3
passengers picked up (the capacity remainder), and the reporter computes
leftover 2 = max 0 (5 - 3). -/
theorem depot_served_le_demand_witness :
    (wit_inst.depots.map Depot.id).Nodup ∧
    wit_inst.depots.headI ∈ wit_inst.depots ∧
    (picked_total (evaluate_chromosome wit_dist wit_ch wit_inst).1.routes
        wit_inst.depots.headI.id ≤
      wit_inst.depots.headI.demand wit_inst.shifts.headI.id ∧
    lookupZ (generate_reports (evaluate_chromosome wit_dist wit_ch wit_inst).1
        wit_inst).depot_leftovers wit_inst.depots.headI.id =
      max 0 ((wit_inst.depots.headI.demand wit_inst.shifts.headI.id : ℤ) -
        (picked_total (evaluate_chromosome wit_dist wit_ch wit_inst).1.routes
          wit_inst.depots.headI.id : ℤ))) :=
  ⟨by decide, by decide,
    depot_served_le_demand_and_leftover wit_dist wit_ch wit_inst (by decide)
      wit_inst.depots.headI (by decide)⟩

/-- C5: chromosome evaluation is independent of the chromosome's
assignment pairs — with external routing disabled, evaluating any two
chromosomes on one instance returns equal (Solution, cost).  In the
source the chromosome parameter is never read, so this holds
definitionally. -/
theorem evaluate_chromosome_independent_of_chromosome
    (dist : Coord → Coord → ℚ) (ch1 ch2 : Chromosome) (inst : Instance) :
    evaluate_chromosome dist ch1 inst = evaluate_chromosome dist ch2 inst :=
  rfl

/-- C10: report generation only fills in `reports`, `depot_leftovers` and
`violations`; the routes list and total cost of the Solution it is given
are carried over unchanged. -/
theorem generate_reports_frame (sol : Solution) (inst : Instance) :
    (generate_reports sol inst).routes = sol.routes ∧
    (generate_reports sol inst).total_cost = sol.total_cost :=
  ⟨rfl, rfl⟩

/-- C6 counterexample: the concrete vehicle list is NOT ordered ascending
by seat capacity across the owned/rented boundary — a rented vehicle of
capacity 5 comes after an owned vehicle of capacity 50, because the
source sorts the owned and rented segments separately and concatenates
owned first. -/
theorem vehicle_list_not_globally_sorted :
    (vehicle_list fleet_c6).map VehicleInst.capacity = [50, 5] ∧
    ¬ ((vehicle_list fleet_c6).map VehicleInst.capacity).Pairwise (· ≤ ·) := by
  constructor
  · decide
  · intro h
    have : (50 : ℕ) ≤ 5 := by
      have he : (vehicle_list fleet_c6).map VehicleInst.capacity = [50, 5] := by decide
      rw [he] at h
      exact (List.pairwise_cons.mp h).1 5 (by decide)
    omega

/-- C6 amended: the concrete vehicle list is the expansion of every owned
type repeated by its count followed by every rented type once; each of
the two segments is ordered ascending by capacity, but the list is not
globally sorted (owned vehicles always precede rented ones). -/
theorem vehicle_list_structure (f : Fleet) :
    vehicle_list f = owned_vehicle_list f ++ rented_vehicle_list f
    ∧ ((owned_vehicle_list f).map VehicleInst.capacity).Pairwise (· ≤ ·)
    ∧ ((rented_vehicle_list f).map VehicleInst.capacity).Pairwise (· ≤ ·)
    ∧ (∀ v ∈ owned_vehicle_list f, v.owned = true)
    ∧ (∀ v ∈ rented_vehicle_list f, v.owned = false)
    ∧ (owned_vehicle_list f).Perm
        (f.owned.flatMap (fun o => List.replicate o.count
          (VehicleInst.mk o.type_id o.capacity o.cost_per_km true)))
    ∧ (rented_vehicle_list f).Perm
        (f.rented.map (fun r =>
          VehicleInst.mk r.type_id r.capacity r.cost_per_km false)) := by
  refine ⟨rfl, ?_, ?_, ?_, ?_, ?_, ?_⟩
  · exact pairwise_flatMap_replicate _ (sorted_owned_by_capacity f.owned)
  · rw [rented_vehicle_list, List.map_map]
    rw [List.pairwise_map]
    exact sorted_rented_by_capacity f.rented
  · intro v hv
    rcases List.mem_flatMap.mp hv with ⟨o, _, hvo⟩
    rw [List.eq_of_mem_replicate hvo]
  · intro v hv
    rcases List.mem_map.mp hv with ⟨r, _, rfl⟩
    rfl
  · exact (List.perm_insertionSort _ f.owned).flatMap_right _
  · exact (List.perm_insertionSort _ f.rented).map _

/-- Witness for C6's amended theorem at the counterexample fleet. -/
theorem vehicle_list_structure_witness :
    ((owned_vehicle_list fleet_c6).map VehicleInst.capacity).Pairwise (· ≤ ·) ∧
    (∀ v ∈ owned_vehicle_list fleet_c6, v.owned = true) :=
  ⟨(vehicle_list_structure fleet_c6).2.1, (vehicle_list_structure fleet_c6).2.2.2.1⟩

/-- Re-offering the tracked best pair never changes it. -/
theorem update_best_self (x : Solution × ℚ) : update_best (some x) x = some x := by
  rw [update_best, if_neg (lt_irrefl x.2)]

/-- A population of copies of one scored pair folds to that pair. -/
theorem foldl_update_best_replicate_some (x : Solution × ℚ) :
    ∀ n, (List.replicate n x).foldl update_best (some x) = some x := by
  intro n
  induction n with
  | zero => rfl
  | succ m ih =>
    rw [List.replicate_succ, List.foldl_cons, update_best_self]
    exact ih

/-- From the empty best, a nonempty population of one repeated scored
pair folds to that pair. -/
theorem foldl_update_best_replicate_none (x : Solution × ℚ) (n : ℕ) (hn : 0 < n) :
    (List.replicate n x).foldl update_best none = some x := by
  cases n with
  | zero => exact absurd hn (lt_irrefl 0)
  | succ m =>
    rw [List.replicate_succ, List.foldl_cons]
    exact foldl_update_best_replicate_some x m

/-- When every chromosome of every generation scores identically, the
whole run tracks exactly that pair (positive population and generation
counts). -/
theorem run_generations_replicate (x : Solution × ℚ) (p g : ℕ)
    (hp : 0 < p) (hg : 0 < g) :
    run_generations (List.replicate g (List.replicate p x)) = some x := by
  cases g with
  | zero => exact absurd hg (lt_irrefl 0)
  | succ m =>
    rw [run_generations, List.replicate_succ, List.foldl_cons,
      foldl_update_best_replicate_none x p hp]
    induction m with
    | zero => rfl
    | succ m2 ih =>
      rw [List.replicate_succ, List.foldl_cons, foldl_update_best_replicate_some]
      exact ih (Nat.succ_pos _)

/-- C7 counterexample: on an instance with no vehicles at all, the GA run
does NOT fail — it runs its generations and returns a Solution with an
empty route list (all demand unserved), instead of aborting with a
configuration error before the search starts. -/
theorem solve_ga_no_vehicles_counterexample :
    (solve_ga wit_dist inst_c7 1 1).toOption.map Solution.routes = some [] := by
  decide

/-- C7 amended: an empty fleet is not a fatal configuration error for the
GA solver: for any positive population size and generation count the run
completes and returns a Solution with no routes; only the baseline
solver's vehicle lookup raises the `No vehicles defined` error. -/
theorem solve_ga_no_vehicles (dist : Coord → Coord → ℚ) (inst : Instance)
    (p g load : ℕ) (ho : inst.vehicles.owned = []) (hr : inst.vehicles.rented = [])
    (hp : 0 < p) (hg : 0 < g) :
    (∃ s, solve_ga dist inst p g = Except.ok s ∧ s.routes = []) ∧
    find_best_vehicle_for_load inst.vehicles load =
      Except.error "No vehicles defined" := by
  have hfleet : inst.vehicles = { owned := [], rented := [] } := by
    cases hv : inst.vehicles with
    | mk o r =>
      rw [hv] at ho hr
      simp only [] at ho hr
      rw [ho, hr]
  constructor
  · have hvl : vehicle_list inst.vehicles = [] := by
      rw [hfleet]
      rfl
    have hroutes : (evaluate_chromosome dist { assignments := [] } inst).1.routes = [] := by
      rw [evaluate_routes_eq, hvl]
      rfl
    refine ⟨generate_reports (evaluate_chromosome dist { assignments := [] } inst).1 inst,
      ?_, ?_⟩
    · rw [solve_ga, run_generations_replicate _ p g hp hg]
    · exact hroutes
  · rw [hfleet]
    rfl

/-- Witness for C7's amended theorem at the concrete empty-fleet
instance. -/
theorem solve_ga_no_vehicles_witness :
    (inst_c7.vehicles.owned = [] ∧ inst_c7.vehicles.rented = [] ∧ 0 < 20 ∧ 0 < 60) ∧
    ((∃ s, solve_ga wit_dist inst_c7 20 60 = Except.ok s ∧ s.routes = []) ∧
     find_best_vehicle_for_load inst_c7.vehicles 10 =
       Except.error "No vehicles defined") :=
  ⟨⟨rfl, rfl, by decide, by decide⟩,
   solve_ga_no_vehicles wit_dist inst_c7 20 60 10 rfl rfl (by decide) (by decide)⟩

/-- Start-depot characterization: `argmax_remaining` returns an index of
positive remaining demand that is maximal over all indices, and every
smaller index carries strictly smaller demand (Python `max` keeps the
first maximal element). -/
theorem argmax_remaining_spec (rem : List ℕ) (i : ℕ)
    (h : argmax_remaining rem = some i) :
    0 < rem.getD i 0 ∧ (∀ j, j < rem.length → rem.getD j 0 ≤ rem.getD i 0) ∧
    ∀ j, j < i → rem.getD j 0 < rem.getD i 0 := by
  rw [argmax_remaining] at h
  rcases hf : (List.range rem.length).filter (fun j => decide (0 < rem.getD j 0))
    with _ | ⟨c, cs⟩ <;> rw [hf] at h
  · cases h
  · have hi : fold_max_remaining rem c cs = i := by
      cases h
      rfl
    have hmem : i ∈ c :: cs := by
      rw [← hi]
      exact fold_max_remaining_mem rem cs c
    have hfil : i ∈ (List.range rem.length).filter (fun j => decide (0 < rem.getD j 0)) := by
      rw [hf]
      exact hmem
    have hpos : 0 < rem.getD i 0 :=
      of_decide_eq_true (List.mem_filter.mp hfil).2
    refine ⟨hpos, ?_, ?_⟩
    · intro j hj
      rcases Nat.eq_zero_or_pos (rem.getD j 0) with hz | hjpos
      · rw [hz]
        exact Nat.zero_le _
      · have : j ∈ c :: cs := by
          rw [← hf]
          exact List.mem_filter.mpr ⟨List.mem_range.mpr hj, decide_eq_true hjpos⟩
        rw [← hi]
        exact fold_max_remaining_ge rem cs c j this
    · intro j hji
      rcases Nat.eq_zero_or_pos (rem.getD j 0) with hz | hjpos
      · rw [hz]
        exact hpos
      · have hjlen : j < rem.length := by
          have : i < rem.length := List.mem_range.mp (List.mem_filter.mp hfil).1
          omega
        have hjf : j ∈ c :: cs := by
          rw [← hf]
          exact List.mem_filter.mpr ⟨List.mem_range.mpr hjlen, decide_eq_true hjpos⟩
        rcases fold_max_remaining_first rem cs c with ⟨l1, l2, hsplit, hlt⟩
        rw [hi] at hsplit hlt
        have hpw : (c :: cs).Pairwise (· < ·) := by
          rw [← hf]
          exact (List.pairwise_lt_range _).sublist (List.filter_sublist _)
        rw [hsplit] at hjf hpw
        rcases List.mem_append.mp hjf with hl1 | hil2
        · exact hlt j hl1
        · rcases List.mem_cons.mp hil2 with rfl | hl2
          · exact absurd hji (lt_irrefl j)
          · have : i < j :=
              (List.pairwise_cons.mp (List.pairwise_append.mp hpw).2.1).1 j hl2
            omega

/-- The source loop equals the spec-side greedy loop whenever it is
entered the way the vehicle loop enters it: positive capacity, positive
demand at the start depot, start depot unvisited.  The source's extra
guards are unreachable under these conditions, and its
`capacity-left = 0` test agrees with the spec's `take exhausts capacity`
test. -/
theorem pickup_go_eq_greedy_fill_go (dist : Coord → Coord → ℚ) (depots : List Depot) :
    ∀ fuel cap cur remaining used,
      cap ≠ 0 → remaining.getD cur 0 ≠ 0 → cur ∉ used → cap ≤ fuel →
      pickup_go dist depots fuel cap cur remaining used =
      greedy_fill_go dist depots fuel cap cur remaining used := by
  intro fuel
  induction fuel with
  | zero =>
    intro cap cur rem used hcap _ _ hle
    omega
  | succ n ih =>
    intro cap cur rem used hcap hrem hused hle
    rcases cap with _ | c
    · omega
    · rw [pickup_go, greedy_fill_go]
      rw [if_neg (fun hor => hor.elim hrem hused)]
      have htake1 : 1 ≤ min (rem.getD cur 0) (c + 1) := by omega
      simp only []
      have hiff : (c + 1 - min (rem.getD cur 0) (c + 1) = 0) ↔
          (min (rem.getD cur 0) (c + 1) = c + 1) := by omega
      rcases Decidable.em (c + 1 - min (rem.getD cur 0) (c + 1) = 0) with hc | hc
      · rw [if_pos hc, if_pos (hiff.mp hc)]
      · rw [if_neg hc, if_neg (fun he => hc (hiff.mpr he))]
        rcases Decidable.em ((List.range (rem.set cur
            (rem.getD cur 0 - min (rem.getD cur 0) (c + 1))).length).filter
            (fun j => decide (0 < (rem.set cur
              (rem.getD cur 0 - min (rem.getD cur 0) (c + 1))).getD j 0 ∧
              j ∉ cur :: used)) = []) with hfc | hfc
        · rw [if_pos hfc, if_pos hfc]
        · rw [if_neg hfc, if_neg hfc]
          rcases List.exists_cons_of_ne_nil hfc with ⟨x, xs, hxs⟩
          rw [hxs]
          simp only [List.headD_cons, List.tail_cons]
          have hnext2 : fold_min_by
              (fun j => dist (depot_coord depots cur) (depot_coord depots j)) x xs ∈
              (List.range (rem.set cur
                (rem.getD cur 0 - min (rem.getD cur 0) (c + 1))).length).filter
                (fun j => decide (0 < (rem.set cur
                  (rem.getD cur 0 - min (rem.getD cur 0) (c + 1))).getD j 0 ∧
                  j ∉ cur :: used)) := by
            rw [hxs]
            exact fold_min_by_mem _ xs x
          have hprops := of_decide_eq_true (List.mem_filter.mp hnext2).2
          rw [ih _ _ _ _ (by omega) (by omega) hprops.2 (by omega)]

/-- C9: properties of the greedy route builder stated by the spec — (a)
vehicles producing zero pickups are dropped from the result; (b) the
start depot is a first-occurrence maximum of remaining demand; (c) the
source loop is exactly the spec's greedy fill (take the min, stop when
capacity is exhausted, else move to the nearest unvisited depot with
positive remaining demand). -/
theorem greedy_route_builder_spec_props :
    (∀ (dist : Coord → Coord → ℚ) (ch : Chromosome) (inst : Instance) (r : Route),
      r ∈ (evaluate_chromosome dist ch inst).1.routes → r.pickups ≠ [])
    ∧ (∀ (rem : List ℕ) (i : ℕ), argmax_remaining rem = some i →
        0 < rem.getD i 0 ∧ (∀ j, j < rem.length → rem.getD j 0 ≤ rem.getD i 0) ∧
        ∀ j, j < i → rem.getD j 0 < rem.getD i 0)
    ∧ (∀ (dist : Coord → Coord → ℚ) (depots : List Depot) (cap cur : ℕ)
        (remaining used : List ℕ),
        cap ≠ 0 → remaining.getD cur 0 ≠ 0 → cur ∉ used →
        pickup_loop dist depots cap cur remaining used =
        greedy_fill_spec dist depots cap cur remaining used) := by
  refine ⟨?_, argmax_remaining_spec, ?_⟩
  · intro dist ch inst r hr
    rcases build_routes_mem dist inst inst.shifts.headI _ _ r hr with ⟨v, rem0, start, he, hne, _⟩
    subst he
    exact hne
  · intro dist depots cap cur rem used hcap hrem hused
    exact pickup_go_eq_greedy_fill_go dist depots cap cap cur rem used
      hcap hrem hused (le_refl cap)

/-- Witness for C9 at the concrete two-depot instance: the first route
has nonempty pickups, the start depot is depot B (index 1, first maximum
of [5, 7]), and the source loop agrees with the spec-side greedy fill. -/
theorem greedy_route_builder_spec_witness :
    ((evaluate_chromosome wit_dist wit_ch wit_inst).1.routes.headI ∈
        (evaluate_chromosome wit_dist wit_ch wit_inst).1.routes ∧
      (evaluate_chromosome wit_dist wit_ch wit_inst).1.routes.headI.pickups ≠ []) ∧
    (argmax_remaining [5, 7] = some 1 ∧
      (0 < [5, 7].getD 1 0 ∧ (∀ j, j < [5, 7].length → [5, 7].getD j 0 ≤ [5, 7].getD 1 0) ∧
        ∀ j, j < 1 → [5, 7].getD j 0 < [5, 7].getD 1 0)) ∧
    ((10 : ℕ) ≠ 0 ∧ [5, 7].getD 1 0 ≠ 0 ∧ (1 : ℕ) ∉ ([] : List ℕ) ∧
      pickup_loop wit_dist wit_inst.depots 10 1 [5, 7] [] =
        greedy_fill_spec wit_dist wit_inst.depots 10 1 [5, 7] []) :=
  ⟨⟨headI_mem_of_ne_nil _ (by decide),
    greedy_route_builder_spec_props.1 wit_dist wit_ch wit_inst _
      (headI_mem_of_ne_nil _ (by decide))⟩,
   ⟨by decide, greedy_route_builder_spec_props.2.1 [5, 7] 1 (by decide)⟩,
   ⟨by decide, by decide, by decide,
    greedy_route_builder_spec_props.2.2 wit_dist wit_inst.depots 10 1 [5, 7] []
      (by decide) (by decide) (by decide)⟩⟩

/-- A cached segment stays cached, with the same value, through any
later lookup. -/
theorem osrm_segment_cache_stable (dist : Coord → Coord → ℚ) (st : OsrmState)
    (a b : Coord) (k : ℚ × ℚ × ℚ × ℚ) (r : SegResult)
    (h : st.cache.lookup k = some r) :
    ((osrm_segment dist st a b).2).cache.lookup k = some r := by
  rw [osrm_segment]
  rcases hl : st.cache.lookup (seg_key a b) with _ | r2 <;> simp only [hl]
  · rw [List.lookup_cons]
    have hne : (k == seg_key a b) = false := by
      rw [beq_eq_false_iff_ne]
      intro he
      rw [he, hl] at h
      cases h
    rw [hne]
    exact h
  · exact h

/-- After a segment lookup, its rounded key maps to exactly the returned
triple in the cache — whether it was a hit, an external success, or a
fallback. -/
theorem osrm_segment_caches_result (dist : Coord → Coord → ℚ) (st : OsrmState)
    (a b : Coord) :
    ((osrm_segment dist st a b).2).cache.lookup (seg_key a b) =
      some (osrm_segment dist st a b).1 := by
  rw [osrm_segment]
  rcases hl : st.cache.lookup (seg_key a b) with _ | r2 <;> simp only [hl]
  rw [List.lookup_cons, beq_self_eq_true]

/-- Cached bindings survive a whole run of segment lookups. -/
theorem run_segments_cache_stable (dist : Coord → Coord → ℚ) :
    ∀ (qs : List (Coord × Coord)) (st : OsrmState) (k : ℚ × ℚ × ℚ × ℚ) (r : SegResult),
      st.cache.lookup k = some r →
      ((run_segments dist qs st).2).cache.lookup k = some r := by
  intro qs
  induction qs with
  | nil =>
    intro st k r h
    exact h
  | cons q qs ih =>
    intro st k r h
    exact ih _ k r (osrm_segment_cache_stable dist st q.1 q.2 k r h)

/-- Every query of a run ends with its rounded key bound to its returned
triple in the final cache. -/
theorem run_segments_zip_cached (dist : Coord → Coord → ℚ) :
    ∀ (qs : List (Coord × Coord)) (st : OsrmState),
      ∀ p ∈ qs.zip (run_segments dist qs st).1,
        ((run_segments dist qs st).2).cache.lookup (seg_key p.1.1 p.1.2) = some p.2 := by
  intro qs
  induction qs with
  | nil =>
    intro st p hp
    simp [run_segments] at hp
  | cons q qs ih =>
    intro st p hp
    have hz : (q :: qs).zip (run_segments dist (q :: qs) st).1 =
        (q, (osrm_segment dist st q.1 q.2).1) ::
          qs.zip (run_segments dist qs (osrm_segment dist st q.1 q.2).2).1 := rfl
    rw [hz] at hp
    rcases List.mem_cons.mp hp with rfl | hp'
    · exact run_segments_cache_stable dist qs _ _ _
        (osrm_segment_caches_result dist st q.1 q.2)
    · exact ih _ p hp'

/-- A `lookup` that succeeds still succeeds after a new binding is put in
front. -/
theorem lookup_cons_isSome {m : List ((ℚ × ℚ × ℚ × ℚ) × SegResult)}
    {k k2 : ℚ × ℚ × ℚ × ℚ} {r : SegResult} (h : (m.lookup k).isSome) :
    ((((k2, r) :: m)).lookup k).isSome := by
  rw [List.lookup_cons]
  rcases hbeq : (k == k2) with _ | _
  · exact h
  · rfl

/-- Starting from a state whose call log is duplicate-free and entirely
cached, a run keeps the call log duplicate-free: the external call is
performed at most once per distinct rounded key. -/
theorem run_segments_calls_nodup_aux (dist : Coord → Coord → ℚ) :
    ∀ (qs : List (Coord × Coord)) (st : OsrmState),
      st.calls.Nodup → (∀ k ∈ st.calls, (st.cache.lookup k).isSome) →
      ((run_segments dist qs st).2).calls.Nodup := by
  intro qs
  induction qs with
  | nil =>
    intro st h1 _
    exact h1
  | cons q qs ih =>
    intro st h1 h2
    rcases hl : st.cache.lookup (seg_key q.1 q.2) with _ | r2
    · have hstep : (osrm_segment dist st q.1 q.2).2 =
          { cache := (seg_key q.1 q.2, (osrm_segment dist st q.1 q.2).1) :: st.cache
            responses := st.responses.tail
            calls := st.calls ++ [seg_key q.1 q.2] } := by
        rw [osrm_segment]
        simp only [hl]
      have hnotin : seg_key q.1 q.2 ∉ st.calls := by
        intro hmem
        have := h2 _ hmem
        rw [hl] at this
        cases this
      refine ih _ ?_ ?_
      · rw [hstep]
        simp only []
        rw [List.nodup_append]
        refine ⟨h1, List.nodup_singleton _, ?_⟩
        intro a ha hb
        rcases List.mem_singleton.mp hb with rfl
        exact hnotin ha
      · rw [hstep]
        simp only []
        intro k hk
        rcases List.mem_append.mp hk with hk1 | hk2
        · exact lookup_cons_isSome (h2 k hk1)
        · rcases List.mem_singleton.mp hk2 with rfl
          rw [List.lookup_cons, beq_self_eq_true]
          rfl
    · have hstep : (osrm_segment dist st q.1 q.2).2 = st := by
        rw [osrm_segment]
        simp only [hl]
      rw [run_segments]
      simp only []
      rw [hstep]
      exact ih st h1 h2

/-- C8: within one run (cache cleared at run start), (a) any two segment
lookups whose coordinate pairs round to the same cache key return
identical (distance, time, path) triples — whatever the stream of
external-call outcomes, so fallback results are memoized exactly like
successes; and (b) the external call is performed at most once per
distinct rounded key. -/
theorem osrm_cache_correct :
    (∀ (dist : Coord → Coord → ℚ) (qs : List (Coord × Coord)) (st : OsrmState),
      ∀ p1 ∈ qs.zip (run_segments dist qs st).1,
        ∀ p2 ∈ qs.zip (run_segments dist qs st).1,
          seg_key p1.1.1 p1.1.2 = seg_key p2.1.1 p2.1.2 → p1.2 = p2.2)
    ∧ ∀ (dist : Coord → Coord → ℚ) (qs : List (Coord × Coord))
        (responses : List (Option SegResult)),
        ((run_segments dist qs
          { cache := [], responses := responses, calls := [] }).2).calls.Nodup := by
  constructor
  · intro dist qs st p1 hp1 p2 hp2 hkey
    have h1 := run_segments_zip_cached dist qs st p1 hp1
    have h2 := run_segments_zip_cached dist qs st p2 hp2
    rw [hkey, h2] at h1
    exact (Option.some.inj h1).symm
  · intro dist qs responses
    exact run_segments_calls_nodup_aux dist qs _ (List.nodup_nil) (by simp)

/-- Witness for C8 on a concrete run of two identical queries: both
return the first external answer (the second lookup is served from the
cache) and only one external call is logged. -/
theorem osrm_cache_correct_witness :
    (((((0 : ℚ), (0 : ℚ)), ((1 : ℚ), (1 : ℚ))), SegResult.mk 1 2 []) ∈
        qs_w.zip (run_segments wit_dist qs_w st_w).1 ∧
      SegResult.mk 1 2 [] = SegResult.mk 1 2 []) ∧
    ((run_segments wit_dist qs_w st_w).2).calls.Nodup := by
  have hmem : ((((0 : ℚ), (0 : ℚ)), ((1 : ℚ), (1 : ℚ))), SegResult.mk 1 2 []) ∈
      qs_w.zip (run_segments wit_dist qs_w st_w).1 := by
    simp [qs_w, resp_w, st_w, run_segments, osrm_segment, List.lookup]
  exact ⟨⟨hmem, osrm_cache_correct.1 wit_dist qs_w st_w _ hmem _ hmem rfl⟩,
    osrm_cache_correct.2 wit_dist qs_w resp_w⟩

end VRP

